import Mathlib

/-!
Verification of the forced-alignment core of the AutoLRC repository.

The Python sources are shallowly embedded:
* probabilities / times are rationals (`ℚ`); the `-inf` initial fill of the
  trellis is `⊥ : WithBot ℚ` (IEEE `-inf + finite = -inf` matches `⊥ + x = ⊥`);
* Python strings are lists of characters (`List Char`);
* the acoustic model's emission matrix is a function `ℕ → ℕ → ℚ`
  (frame index → label index → log-probability).
-/

set_option maxRecDepth 8000

namespace AutoLRC

/-- Score type of the trellis: a rational or `-inf`. -/
abbrev Score := WithBot ℚ

/-- The trellis of `ForcedAligner.perform_alignment`
(`src/forced_alignment.py`): `trellis[0][0] = 0`,
`trellis[1:, 0] = cumsum(emissions[:, blank])`, every other cell of row `0`
keeps the `-float('inf')` fill, and
`trellis[t+1][i+1] = max(trellis[t][i+1] + emissions[t][blank],
trellis[t][i] + emissions[t][tokens[i]])`.
The Python code fills the table iteratively; since row `t+1` only reads
row `t`, the recursion below computes the same cells. -/
def trellis (em : ℕ → ℕ → ℚ) (tokens : List ℕ) (blank : ℕ) : ℕ → ℕ → Score
  | 0, 0 => ((0 : ℚ) : Score)
  | t + 1, 0 => trellis em tokens blank t 0 + ((em t blank : ℚ) : Score)
  | 0, _ + 1 => ⊥
  | t + 1, i + 1 =>
      max (trellis em tokens blank t (i + 1) + ((em t blank : ℚ) : Score))
          (trellis em tokens blank t i + ((em t (tokens.getD i 0) : ℚ) : Score))

/-- The trellis as the `(frames+1) × (tokens+1)` matrix the code allocates
with `torch.full((num_frames + 1, num_tokens + 1), -float('inf'))`. -/
def trellisMat (em : ℕ → ℕ → ℚ) (F : ℕ) (tokens : List ℕ) (blank : ℕ) :
    Matrix (Fin (F + 1)) (Fin (tokens.length + 1)) Score :=
  fun t i => trellis em tokens blank t.val i.val

/-- One iteration of the backtracking loop of `perform_alignment` at frame
`t = 0`: while `i > 0`, if
`trellis[0][i] ≤ trellis[0][i-1] + emissions[0][tokens[i-1]]` the loop
records `(0, i-1)` and decrements the token index, otherwise it records
`(0, i)` and decrements the frame to `-1`, which exits the loop. -/
def backtrackRow0 (em : ℕ → ℕ → ℚ) (tokens : List ℕ) (blank : ℕ) :
    ℕ → List (ℕ × ℕ)
  | 0 => [(0, 0)]
  | i + 1 =>
      if trellis em tokens blank 0 (i + 1) ≤
          trellis em tokens blank 0 i + ((em 0 (tokens.getD i 0) : ℚ) : Score) then
        (0, i) :: backtrackRow0 em tokens blank i
      else
        [(0, i + 1)]

/-- Iterations of the backtracking loop at frame `t + 1`, where `prev i`
continues the loop at frame `t` with token index `i`: if `i > 0` and
`trellis[t+1][i] ≤ trellis[t+1][i-1] + emissions[t+1][tokens[i-1]]` the loop
records `(t+1, i-1)` and decrements the token, otherwise it records
`(t+1, i)` and decrements the frame. -/
def backtrackRow (em : ℕ → ℕ → ℚ) (tokens : List ℕ) (blank : ℕ) (t : ℕ)
    (prev : ℕ → List (ℕ × ℕ)) : ℕ → List (ℕ × ℕ)
  | 0 => (t + 1, 0) :: prev 0
  | i + 1 =>
      if trellis em tokens blank (t + 1) (i + 1) ≤
          trellis em tokens blank (t + 1) i +
            ((em (t + 1) (tokens.getD i 0) : ℚ) : Score) then
        (t + 1, i) :: backtrackRow em tokens blank t prev i
      else
        (t + 1, i + 1) :: prev (i + 1)

/-- The backtracking loop of `perform_alignment`, as a function of the
current frame `t` and token index `i`: the list of `(frame, token)` pairs
the loop appends from state `(t, i)` until `t` falls below `0`.  The
recursion is organised row by row so that it is structural; the one-step
unfoldings `backtrack_succ_succ` etc. below recover the loop body
literally. -/
def backtrack (em : ℕ → ℕ → ℚ) (tokens : List ℕ) (blank : ℕ) :
    ℕ → ℕ → List (ℕ × ℕ)
  | 0 => backtrackRow0 em tokens blank
  | t + 1 => backtrackRow em tokens blank t (backtrack em tokens blank t)

theorem backtrack_zero_zero (em : ℕ → ℕ → ℚ) (tokens : List ℕ) (blank : ℕ) :
    backtrack em tokens blank 0 0 = [(0, 0)] := rfl

theorem backtrack_succ_zero (em : ℕ → ℕ → ℚ) (tokens : List ℕ) (blank t : ℕ) :
    backtrack em tokens blank (t + 1) 0 =
      (t + 1, 0) :: backtrack em tokens blank t 0 := rfl

theorem backtrack_zero_succ (em : ℕ → ℕ → ℚ) (tokens : List ℕ) (blank i : ℕ) :
    backtrack em tokens blank 0 (i + 1) =
      if trellis em tokens blank 0 (i + 1) ≤
          trellis em tokens blank 0 i + ((em 0 (tokens.getD i 0) : ℚ) : Score) then
        (0, i) :: backtrack em tokens blank 0 i
      else
        [(0, i + 1)] := rfl

theorem backtrack_succ_succ (em : ℕ → ℕ → ℚ) (tokens : List ℕ) (blank t i : ℕ) :
    backtrack em tokens blank (t + 1) (i + 1) =
      if trellis em tokens blank (t + 1) (i + 1) ≤
          trellis em tokens blank (t + 1) i +
            ((em (t + 1) (tokens.getD i 0) : ℚ) : Score) then
        (t + 1, i) :: backtrack em tokens blank (t + 1) i
      else
        (t + 1, i + 1) :: backtrack em tokens blank t (i + 1) := rfl

/-- The path returned by `perform_alignment`: the backtrack starts at
`(num_frames - 1, num_tokens)` and the collected list is reversed
(`path[::-1]`).  With zero frames the loop body never runs. -/
def viterbiPath (em : ℕ → ℕ → ℚ) (F : ℕ) (tokens : List ℕ) (blank : ℕ) :
    List (ℕ × ℕ) :=
  match F with
  | 0 => []
  | F' + 1 => (backtrack em tokens blank F' tokens.length).reverse

/-- Column `0` of the trellis is the running sum of the blank-symbol
emissions, matching `trellis[1:, 0] = torch.cumsum(emissions[:, self.blank], 0)`. -/
theorem trellis_col0 (em : ℕ → ℕ → ℚ) (tokens : List ℕ) (blank : ℕ) :
    ∀ t, trellis em tokens blank t 0 =
      ((∑ s ∈ Finset.range t, em s blank : ℚ) : Score) := by
  intro t
  induction t with
  | zero => simp [trellis]
  | succ t ih =>
      have h : trellis em tokens blank (t + 1) 0 =
          trellis em tokens blank t 0 + ((em t blank : ℚ) : Score) := rfl
      rw [h, ih, Finset.sum_range_succ]
      norm_cast

/-- Row `0` of the trellis keeps the `-inf` fill outside the corner. -/
theorem trellis_row0 (em : ℕ → ℕ → ℚ) (tokens : List ℕ) (blank i : ℕ) :
    trellis em tokens blank 0 (i + 1) = ⊥ := rfl

/-- **C1.** `perform_alignment` computes its trellis exactly as specified:
the trellis is a `(frames+1) × (tokens+1)` matrix (the index types of
`trellisMat`), `trellis[0][0] = 0`, `trellis[t][0]` is the cumulative
blank-symbol emission score over the first `t` frames, and
`trellis[t+1][i+1] = max(trellis[t][i+1] + emissions[t][blank],
trellis[t][i] + emissions[t][tokens[i]])`. -/
theorem C1_trellis_recurrence (em : ℕ → ℕ → ℚ) (F : ℕ) (tokens : List ℕ)
    (blank : ℕ) :
    trellisMat em F tokens blank 0 0 = ((0 : ℚ) : Score)
    ∧ (∀ t : Fin (F + 1), trellisMat em F tokens blank t 0 =
        ((∑ s ∈ Finset.range t.val, em s blank : ℚ) : Score))
    ∧ ∀ (t : Fin F) (i : Fin tokens.length),
        trellisMat em F tokens blank t.succ i.succ =
          max (trellisMat em F tokens blank t.castSucc i.succ +
                ((em t.val blank : ℚ) : Score))
              (trellisMat em F tokens blank t.castSucc i.castSucc +
                ((em t.val (tokens.get i) : ℚ) : Score)) := by
  refine ⟨rfl, fun t => ?_, fun t i => ?_⟩
  · exact trellis_col0 em tokens blank t.val
  · show trellis em tokens blank (t.val + 1) (i.val + 1) = _
    have h : trellis em tokens blank (t.val + 1) (i.val + 1) =
        max (trellis em tokens blank t.val (i.val + 1) +
              ((em t.val blank : ℚ) : Score))
            (trellis em tokens blank t.val i.val +
              ((em t.val (tokens.getD i.val 0) : ℚ) : Score)) := rfl
    rw [h, List.getD_eq_getElem tokens 0 i.isLt]
    rfl

/-- At frame `0` the stay-or-advance comparison always advances the token
index (for positive `i`): the compared cell `trellis[0][i]` still holds the
`-inf` fill, and `-inf ≤ x` for every `x`. -/
theorem backtrack_zero_succ_adv (em : ℕ → ℕ → ℚ) (tokens : List ℕ)
    (blank i : ℕ) :
    backtrack em tokens blank 0 (i + 1) =
      (0, i) :: backtrack em tokens blank 0 i := by
  have h : trellis em tokens blank 0 (i + 1) ≤
      trellis em tokens blank 0 i + ((em 0 (tokens.getD i 0) : ℚ) : Score) := by
    rw [trellis_row0]; exact bot_le
  rw [backtrack_zero_succ, if_pos h]

theorem backtrack_ne_nil (em : ℕ → ℕ → ℚ) (tokens : List ℕ) (blank : ℕ) :
    ∀ t i, backtrack em tokens blank t i ≠ [] := by
  intro t i
  match t, i with
  | 0, 0 => simp [backtrack_zero_zero]
  | t + 1, 0 => simp [backtrack_succ_zero]
  | 0, i + 1 => rw [backtrack_zero_succ]; split <;> simp
  | t + 1, i + 1 => rw [backtrack_succ_succ]; split <;> simp

/-- The first pair the loop records from state `(t, i)` has frame `t` and a
token index of at most `i`. -/
theorem backtrack_head (em : ℕ → ℕ → ℚ) (tokens : List ℕ) (blank : ℕ)
    (t i : ℕ) :
    ∃ j, j ≤ i ∧ (backtrack em tokens blank t i).head? = some (t, j) := by
  match t, i with
  | 0, 0 => exact ⟨0, le_rfl, rfl⟩
  | t + 1, 0 => exact ⟨0, le_rfl, rfl⟩
  | 0, i + 1 =>
      rw [backtrack_zero_succ]; split
      · exact ⟨i, by omega, rfl⟩
      · exact ⟨i + 1, le_rfl, rfl⟩
  | t + 1, i + 1 =>
      rw [backtrack_succ_succ]; split
      · exact ⟨i, by omega, rfl⟩
      · exact ⟨i + 1, le_rfl, rfl⟩

/-- Both coordinates only ever decrease along the recorded (pre-reversal)
list. -/
theorem backtrack_chain (em : ℕ → ℕ → ℚ) (tokens : List ℕ) (blank : ℕ) :
    ∀ t i, List.Chain' (fun p q : ℕ × ℕ => q.1 ≤ p.1 ∧ q.2 ≤ p.2)
      (backtrack em tokens blank t i) := by
  intro t
  induction t with
  | zero =>
      intro i
      induction i with
      | zero => simp [backtrack_zero_zero]
      | succ i ihi =>
          rw [backtrack_zero_succ_adv, List.chain'_cons']
          refine ⟨fun q hq => ?_, ihi⟩
          obtain ⟨j, hj, hh⟩ := backtrack_head em tokens blank 0 i
          rw [hh] at hq
          cases hq
          exact ⟨le_rfl, hj⟩
  | succ t iht =>
      intro i
      induction i with
      | zero =>
          rw [backtrack_succ_zero, List.chain'_cons']
          refine ⟨fun q hq => ?_, iht 0⟩
          obtain ⟨j, hj, hh⟩ := backtrack_head em tokens blank t 0
          rw [hh] at hq
          cases hq
          exact ⟨by omega, by omega⟩
      | succ i ihi =>
          rw [backtrack_succ_succ]; split
          · rw [List.chain'_cons']
            refine ⟨fun q hq => ?_, ihi⟩
            obtain ⟨j, hj, hh⟩ := backtrack_head em tokens blank (t + 1) i
            rw [hh] at hq
            cases hq
            exact ⟨le_rfl, by omega⟩
          · rw [List.chain'_cons']
            refine ⟨fun q hq => ?_, iht (i + 1)⟩
            obtain ⟨j, hj, hh⟩ := backtrack_head em tokens blank t (i + 1)
            rw [hh] at hq
            cases hq
            exact ⟨by omega, hj⟩

/-- Every recorded frame index is at most the starting frame `t`, and every
recorded token index is at most the starting token index `i`. -/
theorem backtrack_bounds (em : ℕ → ℕ → ℚ) (tokens : List ℕ) (blank : ℕ) :
    ∀ t i, ∀ p ∈ backtrack em tokens blank t i, p.1 ≤ t ∧ p.2 ≤ i := by
  intro t
  induction t with
  | zero =>
      intro i
      induction i with
      | zero => simp [backtrack_zero_zero]
      | succ i ihi =>
          rw [backtrack_zero_succ_adv]
          intro p hp
          rcases List.mem_cons.mp hp with h | h
          · subst h; omega
          · have := ihi p h; omega
  | succ t iht =>
      intro i
      induction i with
      | zero =>
          rw [backtrack_succ_zero]
          intro p hp
          rcases List.mem_cons.mp hp with h | h
          · subst h; omega
          · have := iht 0 p h; omega
      | succ i ihi =>
          rw [backtrack_succ_succ]; split
          · intro p hp
            rcases List.mem_cons.mp hp with h | h
            · subst h; omega
            · have := ihi p h; omega
          · intro p hp
            rcases List.mem_cons.mp hp with h | h
            · subst h; omega
            · have := iht (i + 1) p h; omega

/-- Every frame index from `0` up to the starting frame `t` is recorded:
the loop records one pair at each frame decrement. -/
theorem backtrack_frames (em : ℕ → ℕ → ℚ) (tokens : List ℕ) (blank : ℕ) :
    ∀ t i, ∀ f ≤ t, ∃ p ∈ backtrack em tokens blank t i, p.1 = f := by
  intro t
  induction t with
  | zero =>
      intro i
      induction i with
      | zero => intro f hf; exact ⟨(0, 0), by simp [backtrack_zero_zero], by omega⟩
      | succ i ihi =>
          intro f hf
          rw [backtrack_zero_succ_adv]
          obtain ⟨p, hp, hpf⟩ := ihi f hf
          exact ⟨p, List.mem_cons_of_mem _ hp, hpf⟩
  | succ t iht =>
      intro i
      induction i with
      | zero =>
          intro f hf
          rw [backtrack_succ_zero]
          rcases Nat.eq_or_lt_of_le hf with h | h
          · exact ⟨(t + 1, 0), List.mem_cons_self _ _, h.symm⟩
          · obtain ⟨p, hp, hpf⟩ := iht 0 f (by omega)
            exact ⟨p, List.mem_cons_of_mem _ hp, hpf⟩
      | succ i ihi =>
          intro f hf
          rw [backtrack_succ_succ]; split
          · obtain ⟨p, hp, hpf⟩ := ihi f hf
            exact ⟨p, List.mem_cons_of_mem _ hp, hpf⟩
          · rcases Nat.eq_or_lt_of_le hf with h | h
            · exact ⟨(t + 1, i + 1), List.mem_cons_self _ _, h.symm⟩
            · obtain ⟨p, hp, hpf⟩ := iht (i + 1) f (by omega)
              exact ⟨p, List.mem_cons_of_mem _ hp, hpf⟩

/-- Every token index strictly below the starting token index `i` is
recorded: the token index decreases one step at a time, each decrement is
recorded, and it always reaches `0` because at frame `0` the comparison
always advances. -/
theorem backtrack_tokens (em : ℕ → ℕ → ℚ) (tokens : List ℕ) (blank : ℕ) :
    ∀ t i, ∀ j < i, ∃ p ∈ backtrack em tokens blank t i, p.2 = j := by
  intro t
  induction t with
  | zero =>
      intro i
      induction i with
      | zero => omega
      | succ i ihi =>
          intro j hj
          rw [backtrack_zero_succ_adv]
          rcases Nat.lt_succ_iff_lt_or_eq.mp hj with h | h
          · obtain ⟨p, hp, hpj⟩ := ihi j h
            exact ⟨p, List.mem_cons_of_mem _ hp, hpj⟩
          · exact ⟨(0, i), List.mem_cons_self _ _, h.symm⟩
  | succ t iht =>
      intro i
      induction i with
      | zero => omega
      | succ i ihi =>
          intro j hj
          rw [backtrack_succ_succ]; split
          · rcases Nat.lt_succ_iff_lt_or_eq.mp hj with h | h
            · obtain ⟨p, hp, hpj⟩ := ihi j h
              exact ⟨p, List.mem_cons_of_mem _ hp, hpj⟩
            · exact ⟨(t + 1, i), List.mem_cons_self _ _, h.symm⟩
          · obtain ⟨p, hp, hpj⟩ := iht (i + 1) j hj
            exact ⟨p, List.mem_cons_of_mem _ hp, hpj⟩

/-- **C2 (amended).** For every emission matrix with at least one frame and
every non-empty token sequence, the reversed path returned by
`perform_alignment` is non-empty, monotonically non-decreasing in both
coordinates, covers frame `0` through the last frame (its final entry's
frame index is the last frame index), every entry's token index is at most
`tokens.length` (the amendment: the bound is the token *count*, one past
the last token index, because the backtrack starts at `i = num_tokens` and
records `(t, num_tokens)` whenever its first comparisons keep the frame),
and every token index from `0` through the last token is visited. -/
theorem C2_path_invariants (em : ℕ → ℕ → ℚ) (F : ℕ) (tokens : List ℕ)
    (blank : ℕ) (hF : 0 < F) (_htk : tokens ≠ []) :
    viterbiPath em F tokens blank ≠ []
    ∧ List.Chain' (fun p q : ℕ × ℕ => p.1 ≤ q.1 ∧ p.2 ≤ q.2)
        (viterbiPath em F tokens blank)
    ∧ (∀ p ∈ viterbiPath em F tokens blank, p.1 < F)
    ∧ (∀ f < F, ∃ p ∈ viterbiPath em F tokens blank, p.1 = f)
    ∧ (∃ q, (viterbiPath em F tokens blank).getLast? = some q ∧ q.1 = F - 1)
    ∧ (∀ p ∈ viterbiPath em F tokens blank, p.2 ≤ tokens.length)
    ∧ (∀ j < tokens.length, ∃ p ∈ viterbiPath em F tokens blank, p.2 = j) := by
  obtain ⟨F', rfl⟩ : ∃ F', F = F' + 1 := ⟨F - 1, by omega⟩
  show (backtrack em tokens blank F' tokens.length).reverse ≠ [] ∧ _
  refine ⟨?_, ?_, ?_, ?_, ?_, ?_, ?_⟩
  · simp [backtrack_ne_nil]
  · exact List.chain'_reverse.mpr (backtrack_chain em tokens blank F' tokens.length)
  · intro p hp
    have := (backtrack_bounds em tokens blank F' tokens.length p
      (List.mem_reverse.mp hp)).1
    omega
  · intro f hf
    obtain ⟨p, hp, hpf⟩ := backtrack_frames em tokens blank F' tokens.length f
      (by omega)
    exact ⟨p, List.mem_reverse.mpr hp, hpf⟩
  · obtain ⟨j, _, hh⟩ := backtrack_head em tokens blank F' tokens.length
    refine ⟨(F', j), ?_, by omega⟩
    show (backtrack em tokens blank F' tokens.length).reverse.getLast? = _
    rw [List.getLast?_reverse, hh]
  · intro p hp
    exact (backtrack_bounds em tokens blank F' tokens.length p
      (List.mem_reverse.mp hp)).2
  · intro j hj
    obtain ⟨p, hp, hpj⟩ := backtrack_tokens em tokens blank F' tokens.length j hj
    exact ⟨p, List.mem_reverse.mpr hp, hpj⟩

/-- Witness for `C2_path_invariants` at one frame, one token, all emissions
zero. -/
theorem C2_path_invariants_witness :
    ((0 : ℕ) < 1 ∧ ([0] : List ℕ) ≠ [])
    ∧ (viterbiPath (fun _ _ => (0 : ℚ)) 1 [0] 0 ≠ []
      ∧ List.Chain' (fun p q : ℕ × ℕ => p.1 ≤ q.1 ∧ p.2 ≤ q.2)
          (viterbiPath (fun _ _ => (0 : ℚ)) 1 [0] 0)
      ∧ (∀ p ∈ viterbiPath (fun _ _ => (0 : ℚ)) 1 [0] 0, p.1 < 1)
      ∧ (∀ f < 1, ∃ p ∈ viterbiPath (fun _ _ => (0 : ℚ)) 1 [0] 0, p.1 = f)
      ∧ (∃ q, (viterbiPath (fun _ _ => (0 : ℚ)) 1 [0] 0).getLast? = some q
          ∧ q.1 = 1 - 1)
      ∧ (∀ p ∈ viterbiPath (fun _ _ => (0 : ℚ)) 1 [0] 0,
          p.2 ≤ ([0] : List ℕ).length)
      ∧ (∀ j < ([0] : List ℕ).length,
          ∃ p ∈ viterbiPath (fun _ _ => (0 : ℚ)) 1 [0] 0, p.2 = j)) :=
  ⟨⟨Nat.one_pos, by simp⟩,
    C2_path_invariants (fun _ _ => (0 : ℚ)) 1 [0] 0 Nat.one_pos (by simp)⟩

/-- Emission matrix refuting the claimed token-index bound: two frames, the
blank symbol (label `0`) is heavily penalised at frame `0` and the single
token's label `1` is always likely. -/
def cexC2Em : ℕ → ℕ → ℚ :=
  fun t c => if t = 0 then (if c = 0 then -10 else 0) else 0

/-- **C2 counterexample.** With two frames and the one-token sequence `[1]`
over `cexC2Em`, the returned path is `[(0,0), (0,0), (1,1)]`: its entry
`(1, 1)` has token index `1`, strictly greater than the last token index
`0`, so the claimed bound "every path entry's token index lies between 0
and the last token index" fails. -/
theorem C2_counterexample :
    viterbiPath cexC2Em 2 [1] 0 = [(0, 0), (0, 0), (1, 1)]
    ∧ ¬ (∀ p ∈ viterbiPath cexC2Em 2 [1] 0,
        p.2 ≤ ([1] : List ℕ).length - 1) :=
  of_decide_eq_true (by with_unfolding_all rfl)

/-! ## Tokenization and word-level alignment -/

/-- Python's `word.strip()` truthiness test: the word contains at least one
non-whitespace character. -/
def nonWs (w : List Char) : Bool := w.any (fun c => !c.isWhitespace)

/-- `EnglishMapper.create_token_sequence` (`src/languages/english.py`): for
each non-whitespace word, one vocabulary index per lower-cased character
present in `labels`, followed by the index of the `'|'` word separator. -/
def createTokenSequence (romanized : List (List Char)) (labels : List Char) :
    List ℕ :=
  match romanized with
  | [] => []
  | w :: ws =>
      if nonWs w then
        ((w.map Char.toLower).filter (fun c => labels.contains c)).map
            (fun c => labels.indexOf c)
          ++ labels.indexOf '|' :: createTokenSequence ws labels
      else createTokenSequence ws labels

/-- The word-boundary scan of `create_word_alignment`
(`src/forced_alignment.py`): for each non-whitespace romanized word, the
inclusive token-position range `(start_pos, end_pos)` where `end_pos` is
one past the word's last character (the separator position), counting only
characters present in `labels`. -/
def wordIndicesAux (labels : List Char) : List (List Char) → ℕ → List (ℕ × ℕ)
  | [], _ => []
  | w :: ws, pos =>
      if nonWs w then
        (pos, pos + (w.filter (fun c => labels.contains c)).length)
          :: wordIndicesAux labels ws
              (pos + (w.filter (fun c => labels.contains c)).length + 1)
      else wordIndicesAux labels ws pos

def wordIndices (romanized : List (List Char)) (labels : List Char) :
    List (ℕ × ℕ) :=
  wordIndicesAux labels romanized 0

/-- `word_path = [p for p in path if start_idx <= p[1] <= end_idx]`. -/
def wordPath (path : List (ℕ × ℕ)) (r : ℕ × ℕ) : List (ℕ × ℕ) :=
  path.filter (fun p => decide (r.1 ≤ p.2 ∧ p.2 ≤ r.2))

/-- `WordAlignment` dataclass: word text, start time, end time (seconds). -/
structure WordAlignment where
  word : List Char
  start_time : ℚ
  end_time : ℚ
deriving DecidableEq, Repr

instance : Inhabited WordAlignment := ⟨⟨[], 0, 0⟩⟩

/-- The second loop of `create_word_alignment`: walk the word ranges,
stop (`break`) if `word_idx` reaches `len(original_non_ws)`; for a range
with a non-empty `word_path`, emit a `WordAlignment` for
`original_non_ws[word_idx]` spanning from the first matching frame to one
past the last matching frame, and advance `word_idx` — note the code
advances `word_idx` only in this branch. -/
def mapPathToWords (orig : List (List Char)) (path : List (ℕ × ℕ)) (fd : ℚ) :
    List (ℕ × ℕ) → ℕ → List WordAlignment
  | [], _ => []
  | (s, e) :: rest, k =>
      if orig.length ≤ k then []
      else
        if (wordPath path (s, e)).isEmpty then
          mapPathToWords orig path fd rest k
        else
          { word := orig.getD k [],
            start_time := (((wordPath path (s, e)).headD (0, 0)).1 : ℚ) * fd,
            end_time := ((((wordPath path (s, e)).getLastD (0, 0)).1 : ℚ) + 1) * fd }
            :: mapPathToWords orig path fd rest (k + 1)

/-- `ForcedAligner.create_word_alignment`, after the frame duration has
been computed: scan the word boundaries of the romanized words, keep the
non-whitespace original words, and map the path to word spans. -/
def createWordAlignment (originalWords romanizedWords : List (List Char))
    (labels : List Char) (path : List (ℕ × ℕ)) (fd : ℚ) :
    List WordAlignment :=
  mapPathToWords (originalWords.filter nonWs) path fd
    (wordIndices romanizedWords labels) 0

/-- `frame_duration = (total_samples / total_frames) / self.sample_rate`. -/
def frameDuration (totalSamples totalFrames sampleRate : ℕ) : ℚ :=
  ((totalSamples : ℚ) / (totalFrames : ℚ)) / (sampleRate : ℚ)

/-- `ForcedAligner.align` after text preprocessing, with the acoustic model
abstracted into the emission matrix `em` and frame count `F`: build the
token sequence, return no alignment (`None, None, []` in the code) when it
is empty, otherwise run the trellis alignment and the word-span
extraction.  `blank` is `labels.index("_") if "_" in labels else 0`. -/
def alignModel (em : ℕ → ℕ → ℚ) (F : ℕ)
    (originalWords romanizedWords : List (List Char)) (labels : List Char)
    (fd : ℚ) : Option (List WordAlignment) :=
  if (createTokenSequence romanizedWords labels).isEmpty then none
  else
    some (createWordAlignment originalWords romanizedWords labels
      (viterbiPath em F (createTokenSequence romanizedWords labels)
        (if labels.contains '_' then labels.indexOf '_' else 0))
      fd)

/-- The emitted time spans: as long as the `break` guard cannot fire
(`k` plus the number of remaining ranges stays within
`len(original_non_ws)`), each word range with a non-empty `word_path`
produces one span from `first matching frame × fd` to
`(last matching frame + 1) × fd`, and ranges without matches produce
nothing. -/
theorem mapPathToWords_times (orig : List (List Char)) (path : List (ℕ × ℕ))
    (fd : ℚ) :
    ∀ (inds : List (ℕ × ℕ)) (k : ℕ), k + inds.length ≤ orig.length →
      (mapPathToWords orig path fd inds k).map
          (fun s => (s.start_time, s.end_time)) =
        (inds.filter (fun r => !(wordPath path r).isEmpty)).map
          (fun r => ((((wordPath path r).headD (0, 0)).1 : ℚ) * fd,
            ((((wordPath path r).getLastD (0, 0)).1 : ℚ) + 1) * fd)) := by
  intro inds
  induction inds with
  | nil => intro k hk; simp [mapPathToWords]
  | cons r rest ih =>
      intro k hk
      obtain ⟨s, e⟩ := r
      have h1 : ¬ orig.length ≤ k := by
        simp only [List.length_cons] at hk; omega
      by_cases hwp : (wordPath path (s, e)).isEmpty
      · have ihh := ih k (by simp only [List.length_cons] at hk; omega)
        simp [mapPathToWords, h1, hwp, ihh]
      · have hwp' : (wordPath path (s, e)).isEmpty = false :=
          Bool.eq_false_iff.mpr hwp
        have ihh := ih (k + 1) (by simp only [List.length_cons] at hk; omega)
        simp [mapPathToWords, h1, hwp', ihh]

/-- Vocabulary and emission matrix of C3's concrete scenario: labels
`['_','k','a','t','|']` with blank `'_'` at index 0, ten frames, frames
0–4 favour `k`, frames 5–7 favour `a`, frames 8–9 favour `t`. -/
def exLabels : List Char := ['_', 'k', 'a', 't', '|']

def exEmC3 : ℕ → ℕ → ℚ := fun t c =>
  if t ≤ 4 then (if c = 1 then 0 else -10)
  else if t ≤ 7 then (if c = 2 then 0 else -10)
  else (if c = 3 then 0 else -10)

/-- The path of C3's concrete scenario, as computed by the trellis DP. -/
def exPathC3 : List (ℕ × ℕ) :=
  [(0, 0), (0, 0), (1, 1), (2, 1), (3, 1), (4, 1), (5, 1), (5, 1), (6, 2),
   (7, 2), (8, 2), (8, 2), (9, 3), (9, 3)]

/-- **C3.** For every word range with at least one matching path entry,
`create_word_alignment` emits a span from `first matching frame × fd` to
`(last matching frame + 1) × fd` (and nothing for unmatched ranges); the
hypothesis says the number of word ranges does not exceed the number of
non-whitespace original words, the invariant guaranteed by
`preprocess_text` returning parallel word lists, so the `break` guard
cannot cut spans.  In particular, for the one-word token sequence
`[k,a,t,|]` against the 10-frame matrix `exEmC3` the single word's span
starts at `0 × fd` and ends at `10 × fd`. -/
theorem C3_word_span_times (original romanized : List (List Char))
    (labels : List Char) (path : List (ℕ × ℕ)) (fd : ℚ)
    (hlen : (wordIndices romanized labels).length ≤
      (original.filter nonWs).length) :
    ((createWordAlignment original romanized labels path fd).map
        (fun s => (s.start_time, s.end_time)) =
      ((wordIndices romanized labels).filter
          (fun r => !(wordPath path r).isEmpty)).map
        (fun r => ((((wordPath path r).headD (0, 0)).1 : ℚ) * fd,
          ((((wordPath path r).getLastD (0, 0)).1 : ℚ) + 1) * fd)))
    ∧ ∀ fd' : ℚ,
        createWordAlignment ["kat".toList] ["kat".toList] exLabels
          (viterbiPath exEmC3 10 (createTokenSequence ["kat".toList] exLabels)
            (exLabels.indexOf '_')) fd' =
          [⟨"kat".toList, 0 * fd', 10 * fd'⟩] := by
  constructor
  · exact mapPathToWords_times (original.filter nonWs) path fd
      (wordIndices romanized labels) 0 (by omega)
  · intro fd'
    have hpath : viterbiPath exEmC3 10
        (createTokenSequence ["kat".toList] exLabels)
        (exLabels.indexOf '_') = exPathC3 :=
      of_decide_eq_true (by with_unfolding_all rfl)
    have hidx : wordIndices ["kat".toList] exLabels = [(0, 3)] := by decide
    have hfil : (["kat".toList].filter nonWs) = ["kat".toList] := by decide
    have hmap : mapPathToWords ["kat".toList] exPathC3 fd' [(0, 3)] 0 =
        [⟨"kat".toList, ((0 : ℕ) : ℚ) * fd', (((9 : ℕ) : ℚ) + 1) * fd'⟩] := by
      with_unfolding_all rfl
    unfold createWordAlignment
    rw [hpath, hidx, hfil, hmap]
    norm_num [WordAlignment.mk.injEq]

/-- Witness for `C3_word_span_times` on empty word lists (with the concrete
scenario's conclusion instantiated at `fd' = 1`). -/
theorem C3_word_span_times_witness :
    ((wordIndices ([] : List (List Char)) []).length ≤
        (([] : List (List Char)).filter nonWs).length)
    ∧ ((createWordAlignment [] [] [] [] 0).map
          (fun s => (s.start_time, s.end_time)) =
        ((wordIndices ([] : List (List Char)) []).filter
            (fun r => !(wordPath [] r).isEmpty)).map
          (fun r => ((((wordPath [] r).headD (0, 0)).1 : ℚ) * 0,
            ((((wordPath [] r).getLastD (0, 0)).1 : ℚ) + 1) * 0)))
    ∧ createWordAlignment ["kat".toList] ["kat".toList] exLabels
        (viterbiPath exEmC3 10 (createTokenSequence ["kat".toList] exLabels)
          (exLabels.indexOf '_')) 1 =
        [⟨"kat".toList, 0 * 1, 10 * 1⟩] :=
  ⟨by decide,
    (C3_word_span_times [] [] [] [] 0 (by decide)).1,
    (C3_word_span_times [] [] [] [] 0 (by decide)).2 1⟩

/-- Labels for the C4 failing input. -/
def cexLabels4 : List Char := ['_', 'a', 'b', 'c', 'd', '|']

/-- **C4 (code bug).** Words `["ab", "cd"]` give token ranges `(0,2)` and
`(3,5)`; against the path `[(0,3), (1,4)]` the first word has no matching
entries and the second has two.  The claim (and the spec) say the output
should contain only `"cd"` with its own span; instead the code advances
`word_idx` only on success, so the surviving span is labelled with the
*dropped* word's text `"ab"` and `"cd"` is the word that disappears. -/
theorem C4_dropped_word_shifts_texts :
    createWordAlignment ["ab".toList, "cd".toList] ["ab".toList, "cd".toList]
        cexLabels4 [(0, 3), (1, 4)] 1 = [⟨"ab".toList, 0, 2⟩]
    ∧ "cd".toList ∉ (createWordAlignment ["ab".toList, "cd".toList]
        ["ab".toList, "cd".toList] cexLabels4 [(0, 3), (1, 4)] 1).map
          WordAlignment.word :=
  of_decide_eq_true (by with_unfolding_all rfl)

/-- The token sequence is empty exactly when there is no non-whitespace
word: each non-whitespace word contributes at least its separator token. -/
theorem createTokenSequence_nil_iff (romanized : List (List Char))
    (labels : List Char) :
    createTokenSequence romanized labels = [] ↔
      romanized.countP nonWs = 0 := by
  induction romanized with
  | nil => simp [createTokenSequence]
  | cons w ws ih =>
      by_cases hw : nonWs w
      · simp [createTokenSequence, hw, List.countP_cons]
      · simp [createTokenSequence, hw, List.countP_cons, ih]

/-- `align` returns no alignment exactly when the token sequence is
empty. -/
theorem alignModel_none_iff (em : ℕ → ℕ → ℚ) (F : ℕ)
    (original romanized : List (List Char)) (labels : List Char) (fd : ℚ) :
    alignModel em F original romanized labels fd = none ↔
      createTokenSequence romanized labels = [] := by
  by_cases h : (createTokenSequence romanized labels).isEmpty
  · simp_all [alignModel, List.isEmpty_iff]
  · simp_all [alignModel, List.isEmpty_iff]

/-- **C7 (amended).** If no (lower-cased) character of any word is in the
vocabulary labels, `create_token_sequence` returns one `'|'`-separator
token per *non-whitespace* word — so it is empty (and `align` returns no
alignment) exactly when the word list has no non-whitespace word, not
whenever no character was recognized. -/
theorem C7_unrecognized_words (romanized : List (List Char))
    (labels : List Char)
    (h : ∀ w ∈ romanized, ∀ c ∈ w, Char.toLower c ∉ labels) :
    createTokenSequence romanized labels =
      List.replicate (romanized.countP nonWs) (labels.indexOf '|')
    ∧ (createTokenSequence romanized labels = [] ↔
        romanized.countP nonWs = 0)
    ∧ ∀ (em : ℕ → ℕ → ℚ) (F : ℕ) (original : List (List Char)) (fd : ℚ),
        alignModel em F original romanized labels fd = none ↔
          romanized.countP nonWs = 0 := by
  refine ⟨?_, createTokenSequence_nil_iff romanized labels, fun em F o fd =>
    (alignModel_none_iff em F o romanized labels fd).trans
      (createTokenSequence_nil_iff romanized labels)⟩
  induction romanized with
  | nil => simp [createTokenSequence]
  | cons w ws ih =>
      have h' : ∀ a ∈ w, Char.toLower a ∉ labels :=
        fun a ha => h w (List.mem_cons_self w ws) a ha
      have ihh := ih (fun v hv => h v (List.mem_cons_of_mem w hv))
      by_cases hnw : nonWs w
      · simp [createTokenSequence, hnw, List.countP_cons, ihh,
          List.replicate_succ]
        exact h'
      · simp [createTokenSequence, hnw, List.countP_cons, ihh]

/-- Witness for `C7_unrecognized_words`: the single word `"x"` over labels
`['_','a','|']` (with the `align` conjunct instantiated). -/
theorem C7_unrecognized_words_witness :
    (∀ w ∈ ["x".toList], ∀ c ∈ w, Char.toLower c ∉ ['_', 'a', '|'])
    ∧ createTokenSequence ["x".toList] ['_', 'a', '|'] =
        List.replicate (["x".toList].countP nonWs)
          (['_', 'a', '|'].indexOf '|')
    ∧ (createTokenSequence ["x".toList] ['_', 'a', '|'] = [] ↔
        ["x".toList].countP nonWs = 0)
    ∧ (alignModel (fun _ _ => 0) 1 ["x".toList] ["x".toList]
          ['_', 'a', '|'] 1 = none ↔
        ["x".toList].countP nonWs = 0) :=
  ⟨by decide,
    (C7_unrecognized_words ["x".toList] ['_', 'a', '|'] (by decide)).1,
    (C7_unrecognized_words ["x".toList] ['_', 'a', '|'] (by decide)).2.1,
    (C7_unrecognized_words ["x".toList] ['_', 'a', '|'] (by decide)).2.2
      (fun _ _ => 0) 1 ["x".toList] 1⟩

/-- **C7 counterexample.** The word `"x"` has no character in the labels
`['_','a','|']`, yet the token sequence is the singleton separator `[2]`
(not empty), and `align` proceeds to return an alignment rather than
`(None, None, [])`. -/
theorem C7_counterexample :
    createTokenSequence ["x".toList] ['_', 'a', '|'] = [2]
    ∧ (alignModel (fun _ _ => 0) 1 ["x".toList] ["x".toList]
        ['_', 'a', '|'] 1).isSome = true :=
  of_decide_eq_true (by with_unfolding_all rfl)

/-! ## Time formatting (`ForcedAligner._format_time`) -/

/-- Python's `round(seconds, 2)` idealised over `ℚ`, returning
centiseconds: round half to even at the second decimal. -/
def pyRound2 (q : ℚ) : ℤ :=
  if q * 100 - ⌊q * 100⌋ < 1 / 2 then ⌊q * 100⌋
  else if 1 / 2 < q * 100 - ⌊q * 100⌋ then ⌊q * 100⌋ + 1
  else if ⌊q * 100⌋ % 2 = 0 then ⌊q * 100⌋ else ⌊q * 100⌋ + 1

/-- Decimal digits of a natural number, most significant first; `fuel`
bounds the recursion so that it is structural (`fuel = n` always
suffices). -/
def natDigitsCore : ℕ → ℕ → List Char → List Char
  | _, 0, acc => acc
  | 0, _ + 1, acc => acc
  | fuel + 1, n + 1, acc =>
      natDigitsCore fuel ((n + 1) / 10) (Nat.digitChar ((n + 1) % 10) :: acc)

def natDigits (n : ℕ) : List Char :=
  if n = 0 then ['0'] else natDigitsCore n n []

/-- Zero-padding on the left to total width `w`, as in Python's `02d` /
`05.2f` format specifiers. -/
def padZeros (w : ℕ) (s : List Char) : List Char :=
  List.replicate (w - s.length) '0' ++ s

/-- Rendering of `f"{mins:02d}"`: minimum width two, zero-padded after the
sign. -/
def fmtInt2 (n : ℤ) : List Char :=
  if n < 0 then '-' :: padZeros 1 (natDigits (-n).toNat)
  else padZeros 2 (natDigits n.toNat)

/-- The inside of the brackets of `_format_time`:
`mins = int(rounded_seconds // 60)` and `secs = rounded_seconds % 60`
rendered as `f"{mins:02d}:{secs:05.2f}"`, all in centiseconds
(`Int.ediv`/`Int.emod` agree with Python's floor division and modulo for
the positive divisor 6000). -/
def tsBody (seconds : ℚ) : List Char :=
  fmtInt2 ((pyRound2 seconds).ediv 6000) ++
    ':' :: (padZeros 2 (natDigits (((pyRound2 seconds).emod 6000).toNat / 100)) ++
      '.' :: padZeros 2 (natDigits (((pyRound2 seconds).emod 6000).toNat % 100)))

/-- `ForcedAligner._format_time`: `f"[{mins:02d}:{secs:05.2f}]"` after
rounding the input to hundredths of a second. -/
def formatTime (seconds : ℚ) : List Char :=
  '[' :: tsBody seconds ++ [']']

/-- **C5.** `_format_time` rounds to hundredths before decomposing
(re-formatting the rounded value is the identity), renders `[mm:ss.hh]`
with unbounded integer minutes, satisfies the three specified examples,
and its seconds field always holds strictly fewer than 6000 centiseconds,
so it never shows `60.00`. -/
theorem C5_format_time :
    formatTime 0 = "[00:00.00]".toList
    ∧ formatTime (131 / 2) = "[01:05.50]".toList
    ∧ formatTime 3600 = "[60:00.00]".toList
    ∧ (∀ q : ℚ, formatTime (((pyRound2 q : ℚ)) / 100) = formatTime q)
    ∧ ∀ q : ℚ, ∃ (m : ℤ) (s : ℕ), s < 6000 ∧
        formatTime q =
          '[' :: (fmtInt2 m ++
            ':' :: (padZeros 2 (natDigits (s / 100)) ++
              '.' :: padZeros 2 (natDigits (s % 100)))) ++ [']'] := by
  refine ⟨of_decide_eq_true (by with_unfolding_all rfl),
    of_decide_eq_true (by with_unfolding_all rfl),
    of_decide_eq_true (by with_unfolding_all rfl), fun q => ?_, fun q => ?_⟩
  · have h : ∀ c : ℤ, pyRound2 ((c : ℚ) / 100) = c := by
      intro c
      have hx : ((c : ℚ) / 100) * 100 = (c : ℚ) := by field_simp
      unfold pyRound2
      rw [hx, Int.floor_intCast]
      norm_num
    unfold formatTime tsBody
    rw [h (pyRound2 q)]
  · refine ⟨(pyRound2 q).ediv 6000, ((pyRound2 q).emod 6000).toNat, ?_, rfl⟩
    have h1 : 0 ≤ (pyRound2 q).emod 6000 :=
      Int.emod_nonneg _ (by norm_num)
    have h2 : (pyRound2 q).emod 6000 < 6000 :=
      Int.emod_lt_of_pos _ (by norm_num)
    omega

/-! ## LRC / eLRC rendering (`to_lrc`, `to_elrc`) -/

/-- Python's `sep.join(pieces)`. -/
def joinWith (sep : List Char) : List (List Char) → List Char
  | [] => []
  | [w] => w
  | w :: x :: ws => w ++ sep ++ joinWith sep (x :: ws)

/-- `ForcedAligner._format_lrc_line`: the first word's timestamp followed
by the space-joined words. -/
def formatLrcLine (b : List WordAlignment) : List Char :=
  formatTime (b.headD default).start_time ++ joinWith [' '] (b.map (·.word))

/-- `ForcedAligner._format_elrc_line`: the first word's timestamp followed
by `<timestamp>word` units concatenated with no separator. -/
def formatElrcLine (b : List WordAlignment) : List Char :=
  formatTime (b.headD default).start_time ++
    (b.map (fun a => '<' :: formatTime a.start_time ++ '>' :: a.word)).flatten

/-- The shared batching loop of `to_lrc` and `to_elrc`: words are appended
to `current_line`, which is flushed through the line formatter whenever it
reaches `words_per_line` elements, and any leftover is flushed at the
end. -/
def linesGo (fmt : List WordAlignment → List Char) (n : ℕ) :
    List WordAlignment → List WordAlignment → List (List Char)
  | [], cur => if cur.isEmpty then [] else [fmt cur]
  | a :: rest, cur =>
      if n ≤ (cur ++ [a]).length then fmt (cur ++ [a]) :: linesGo fmt n rest []
      else linesGo fmt n rest (cur ++ [a])

/-- `ForcedAligner.to_lrc`: empty input yields the empty document,
otherwise batches of `words_per_line = 4` joined by newlines. -/
def toLrc (alignments : List WordAlignment) : List Char :=
  if alignments.isEmpty then []
  else joinWith ['\n'] (linesGo formatLrcLine 4 alignments [])

/-- `ForcedAligner.to_elrc`: same loop with `words_per_line = 3` and the
word-level line format. -/
def toElrc (alignments : List WordAlignment) : List Char :=
  if alignments.isEmpty then []
  else joinWith ['\n'] (linesGo formatElrcLine 3 alignments [])

/-- Greedy batches of `n` (`fuel` bounds the recursion; `fuel = l.length`
always suffices when `1 ≤ n`). -/
def chunkCore (n : ℕ) : ℕ → List α → List (List α)
  | _, [] => []
  | 0, _ :: _ => []
  | fuel + 1, a :: l => (a :: l).take n :: chunkCore n fuel ((a :: l).drop n)

/-- The list split into consecutive batches of `n` (last batch may be
shorter). -/
def chunkList (n : ℕ) (l : List α) : List (List α) := chunkCore n l.length l

/-- Drop characters up to and including the first occurrence of `d`. -/
def dropAfter (d : Char) : List Char → List Char
  | [] => []
  | c :: cs => if c = d then cs else dropAfter d cs

/-- Modelled from the spec: the plain-text export "derived from either
format by stripping all bracketed timestamp tokens" — remove every
`[...]` and `<...>` segment, keeping all other characters (`fuel` bounds
the recursion; `fuel = l.length` always suffices). -/
def stripCore : ℕ → List Char → List Char
  | _, [] => []
  | 0, _ :: _ => []
  | fuel + 1, c :: cs =>
      if c = '[' then stripCore fuel (dropAfter ']' cs)
      else if c = '<' then stripCore fuel (dropAfter '>' cs)
      else c :: stripCore fuel cs

def stripTs (l : List Char) : List Char := stripCore l.length l

/-- Modelled from the spec: "collapsing whitespace" — split a character
list into its maximal whitespace-free runs. -/
def splitWsAux : List Char → List Char → List (List Char)
  | [], acc => if acc.isEmpty then [] else [acc.reverse]
  | c :: cs, acc =>
      if c.isWhitespace then
        if acc.isEmpty then splitWsAux cs []
        else acc.reverse :: splitWsAux cs []
      else splitWsAux cs (c :: acc)

def collapseWs (l : List Char) : List (List Char) := splitWsAux l []

theorem chunkCore_congr {α : Type} (n : ℕ) (hn : 1 ≤ n) :
    ∀ fuel₁ fuel₂ (l : List α), l.length ≤ fuel₁ → l.length ≤ fuel₂ →
      chunkCore n fuel₁ l = chunkCore n fuel₂ l := by
  intro fuel₁
  induction fuel₁ with
  | zero =>
      intro fuel₂ l h1 _
      cases l with
      | nil => cases fuel₂ <;> rfl
      | cons a l' => simp at h1
  | succ f ih =>
      intro fuel₂ l h1 h2
      cases l with
      | nil => cases fuel₂ <;> rfl
      | cons a l' =>
          cases fuel₂ with
          | zero => simp at h2
          | succ f₂ =>
              simp only [chunkCore]
              congr 1
              apply ih
              · simp only [List.length_drop, List.length_cons] at *; omega
              · simp only [List.length_drop, List.length_cons] at *; omega

theorem chunkList_cons {α : Type} (n : ℕ) (hn : 1 ≤ n) (a : α) (l : List α) :
    chunkList n (a :: l) =
      (a :: l).take n :: chunkList n ((a :: l).drop n) := by
  show chunkCore n (l.length + 1) (a :: l) = _
  simp only [chunkCore]
  congr 1
  exact chunkCore_congr n hn l.length ((a :: l).drop n).length ((a :: l).drop n)
    (by simp; omega) le_rfl

theorem chunkList_append {α : Type} (n : ℕ) (hn : 1 ≤ n) (l₁ l₂ : List α)
    (h : l₁.length = n) :
    chunkList n (l₁ ++ l₂) = l₁ :: chunkList n l₂ := by
  cases l₁ with
  | nil => simp at h; omega
  | cons a t =>
      rw [List.cons_append, chunkList_cons n hn]
      have h1 : List.take n (a :: (t ++ l₂)) = a :: t := by
        rw [← List.cons_append, List.take_left' h]
      have h2 : List.drop n (a :: (t ++ l₂)) = l₂ := by
        rw [← List.cons_append, List.drop_left' h]
      rw [h1, h2]

theorem chunkList_flatten {α : Type} (n : ℕ) (hn : 1 ≤ n) :
    ∀ (l : List α), (chunkList n l).flatten = l := by
  have key : ∀ (N : ℕ) (l : List α), l.length ≤ N →
      (chunkList n l).flatten = l := by
    intro N
    induction N with
    | zero =>
        intro l h
        cases l with
        | nil => rfl
        | cons a l' => simp at h
    | succ N ih =>
        intro l h
        cases l with
        | nil => rfl
        | cons a l' =>
            rw [chunkList_cons n hn, List.flatten_cons,
              ih ((a :: l').drop n) (by simp at h ⊢; omega),
              List.take_append_drop]
  exact fun l => key l.length l le_rfl

theorem chunkList_mem {α : Type} (n : ℕ) (hn : 1 ≤ n) :
    ∀ (l : List α), ∀ b ∈ chunkList n l, b ≠ [] ∧ ∀ x ∈ b, x ∈ l := by
  have key : ∀ (N : ℕ) (l : List α), l.length ≤ N →
      ∀ b ∈ chunkList n l, b ≠ [] ∧ ∀ x ∈ b, x ∈ l := by
    intro N
    induction N with
    | zero =>
        intro l h b hb
        cases l with
        | nil => simp [chunkList, chunkCore] at hb
        | cons a l' => simp at h
    | succ N ih =>
        intro l h b hb
        cases l with
        | nil => simp [chunkList, chunkCore] at hb
        | cons a l' =>
            rw [chunkList_cons n hn] at hb
            rcases List.mem_cons.mp hb with hb | hb
            · subst hb
              refine ⟨?_, fun x hx => List.take_subset n (a :: l') hx⟩
              obtain ⟨m, rfl⟩ : ∃ m, n = m + 1 := ⟨n - 1, by omega⟩
              simp [List.take_succ_cons]
            · obtain ⟨hne, hsub⟩ := ih ((a :: l').drop n)
                (by simp at h ⊢; omega) b hb
              exact ⟨hne, fun x hx => List.drop_subset n (a :: l') (hsub x hx)⟩
  exact fun l => key l.length l le_rfl

/-- The first elements of the batches form a sublist of the original
list. -/
theorem chunkList_headD_sublist {α : Type} (n : ℕ) (hn : 1 ≤ n) (d : α) :
    ∀ (l : List α),
      List.Sublist ((chunkList n l).map (fun b => b.headD d)) l := by
  have key : ∀ (N : ℕ) (l : List α), l.length ≤ N →
      List.Sublist ((chunkList n l).map (fun b => b.headD d)) l := by
    intro N
    induction N with
    | zero =>
        intro l h
        cases l with
        | nil => exact List.Sublist.refl _
        | cons a l' => simp at h
    | succ N ih =>
        intro l h
        cases l with
        | nil => exact List.Sublist.refl _
        | cons a l' =>
            rw [chunkList_cons n hn, List.map_cons]
            obtain ⟨m, rfl⟩ : ∃ m, n = m + 1 := ⟨n - 1, by omega⟩
            rw [List.take_succ_cons, List.drop_succ_cons]
            show List.Sublist (a ::
              ((chunkList (m + 1) (l'.drop m)).map (fun b => b.headD d)))
              (a :: l')
            refine List.Sublist.cons₂ a ?_
        /- the heads of the remaining batches live in `l'.drop m <+ l'` -/
            exact ((ih (l'.drop m) (by simp at h ⊢; omega)).trans
              (List.drop_sublist m l'))
  exact fun l => key l.length l le_rfl

/-- The batching loop equals greedy chunking: starting with a partial
line `cur` (shorter than the batch size), the produced lines are the
formatter applied to the batches of `cur ++ l`. -/
theorem linesGo_chunk (fmt : List WordAlignment → List Char) (n : ℕ)
    (hn : 1 ≤ n) :
    ∀ (l cur : List WordAlignment), cur.length < n →
      linesGo fmt n l cur = (chunkList n (cur ++ l)).map fmt := by
  intro l
  induction l with
  | nil =>
      intro cur hc
      cases cur with
      | nil => simp [linesGo, chunkList, chunkCore]
      | cons a cur' =>
          rw [List.append_nil]
          show (if (a :: cur').isEmpty then [] else [fmt (a :: cur')]) = _
          rw [if_neg (by simp), chunkList_cons n hn,
            List.take_of_length_le (by simpa using hc.le),
            List.drop_eq_nil_of_le (by simpa using hc.le)]
          rfl
  | cons a rest ih =>
      intro cur hc
      show (if n ≤ (cur ++ [a]).length then
          fmt (cur ++ [a]) :: linesGo fmt n rest []
        else linesGo fmt n rest (cur ++ [a])) = _
      have hassoc : cur ++ a :: rest = (cur ++ [a]) ++ rest := by simp
      by_cases hfl : n ≤ (cur ++ [a]).length
      · have hlen : (cur ++ [a]).length = n := by
          simp only [List.length_append, List.length_cons,
            List.length_nil] at hfl ⊢
          omega
        rw [if_pos hfl, ih [] (by simp; omega), hassoc,
          chunkList_append n hn _ _ hlen, List.map_cons, List.nil_append]
      · have hlt : (cur ++ [a]).length < n := by omega
        rw [if_neg hfl, ih (cur ++ [a]) hlt, hassoc]

/-- **C8 (amended).** Under the data-model invariant (per-word `start ≤
end`, successive words with non-decreasing start times), `to_lrc` renders
batches of four words, each line `[mm:ss.hh]` followed by the batch's
space-joined words, and the line timestamps are monotonically
**non-decreasing** (the amendment: ties are possible, e.g. several words
starting in the same hundredth of a second, so strict increase fails). -/
theorem C8_lrc_line_structure (a : List WordAlignment) (ha : a ≠ [])
    (_hse : ∀ w ∈ a, w.start_time ≤ w.end_time)
    (hchain : List.Chain' (fun p q : WordAlignment =>
      p.start_time ≤ q.start_time) a) :
    toLrc a = joinWith ['\n'] ((chunkList 4 a).map
        (fun b => formatTime (b.headD default).start_time ++
          joinWith [' '] (b.map (fun s => s.word))))
    ∧ List.Chain' (fun x y : ℚ => x ≤ y)
        ((chunkList 4 a).map (fun b => (b.headD default).start_time)) := by
  constructor
  · show toLrc a = joinWith ['\n'] ((chunkList 4 a).map formatLrcLine)
    unfold toLrc
    rw [if_neg (by simpa [List.isEmpty_iff] using ha),
      linesGo_chunk formatLrcLine 4 (by norm_num) a [] (by norm_num),
      List.nil_append]
  · have htr : IsTrans WordAlignment (fun p q : WordAlignment =>
        p.start_time ≤ q.start_time) := ⟨fun _ _ _ h1 h2 => le_trans h1 h2⟩
    have hpw : List.Pairwise (fun p q : WordAlignment =>
        p.start_time ≤ q.start_time) a :=
      (@List.chain'_iff_pairwise _ _ htr _).mp hchain
    have hheads : List.Pairwise (fun p q : WordAlignment =>
        p.start_time ≤ q.start_time)
        ((chunkList 4 a).map (fun b => b.headD default)) :=
      hpw.sublist (chunkList_headD_sublist 4 (by norm_num) default a)
    have hmap := hheads.map (fun b : WordAlignment => b.start_time)
      (S := fun x y : ℚ => x ≤ y) (fun _ _ h => h)
    rw [List.map_map] at hmap
    exact hmap.chain'

/-- Five identical words starting at time `0`: the claimed *strictly*
increasing line timestamps fail (both lines render `[00:00.00]`), while
the data-model invariant holds. -/
def cex8 : List WordAlignment := List.replicate 5 ⟨['x'], 0, 0⟩

/-- **C8 counterexample.** `cex8` satisfies the claim's hypotheses, renders
as two lines with the *same* timestamp, and the line start times do not
strictly increase. -/
theorem C8_counterexample :
    (∀ w ∈ cex8, w.start_time ≤ w.end_time)
    ∧ List.Chain' (fun p q : WordAlignment =>
        p.start_time ≤ q.start_time) cex8
    ∧ toLrc cex8 = "[00:00.00]x x x x\n[00:00.00]x".toList
    ∧ ¬ List.Chain' (fun x y : ℚ => x < y)
        ((chunkList 4 cex8).map (fun b => (b.headD default).start_time)) := by
  refine ⟨of_decide_eq_true (by with_unfolding_all rfl), ?_,
    of_decide_eq_true (by with_unfolding_all rfl), fun h => ?_⟩
  · show List.Chain' _ ([⟨['x'], 0, 0⟩, ⟨['x'], 0, 0⟩, ⟨['x'], 0, 0⟩,
      ⟨['x'], 0, 0⟩, ⟨['x'], 0, 0⟩] : List WordAlignment)
    simp [List.chain'_cons]
  · have hmap : (chunkList 4 cex8).map
        (fun b => (b.headD default).start_time) = [(0 : ℚ), 0] :=
      of_decide_eq_true (by with_unfolding_all rfl)
    rw [hmap] at h
    exact absurd (List.chain'_cons.mp h).1 (lt_irrefl 0)

/-- Witness for `C8_lrc_line_structure` at a single word. -/
theorem C8_lrc_line_structure_witness :
    (([⟨['x'], 0, 1⟩] : List WordAlignment) ≠ []
      ∧ (∀ w ∈ ([⟨['x'], 0, 1⟩] : List WordAlignment),
          w.start_time ≤ w.end_time)
      ∧ List.Chain' (fun p q : WordAlignment =>
          p.start_time ≤ q.start_time) [⟨['x'], 0, 1⟩])
    ∧ (toLrc [⟨['x'], 0, 1⟩] = joinWith ['\n']
          ((chunkList 4 [(⟨['x'], 0, 1⟩ : WordAlignment)]).map
            (fun b => formatTime (b.headD default).start_time ++
              joinWith [' '] (b.map (fun s => s.word))))
        ∧ List.Chain' (fun x y : ℚ => x ≤ y)
            ((chunkList 4 [(⟨['x'], 0, 1⟩ : WordAlignment)]).map
              (fun b => (b.headD default).start_time))) :=
  ⟨⟨by simp, of_decide_eq_true (by with_unfolding_all rfl), by simp⟩,
    C8_lrc_line_structure [⟨['x'], 0, 1⟩] (by simp)
      (of_decide_eq_true (by with_unfolding_all rfl)) (by simp)⟩

/-! ## Lemmas about timestamp stripping and whitespace collapsing -/

theorem dropAfter_length (d : Char) : ∀ l, (dropAfter d l).length ≤ l.length := by
  intro l
  induction l with
  | nil => simp [dropAfter]
  | cons c cs ih =>
      simp only [dropAfter]
      split
      · simp
      · simpa using Nat.le_succ_of_le ih

theorem stripCore_congr :
    ∀ f₁ f₂ (l : List Char), l.length ≤ f₁ → l.length ≤ f₂ →
      stripCore f₁ l = stripCore f₂ l := by
  intro f₁
  induction f₁ with
  | zero =>
      intro f₂ l h1 _
      cases l with
      | nil => cases f₂ <;> rfl
      | cons c cs => simp at h1
  | succ f ih =>
      intro f₂ l h1 h2
      cases l with
      | nil => cases f₂ <;> rfl
      | cons c cs =>
          cases f₂ with
          | zero => simp at h2
          | succ f₂' =>
              simp only [stripCore]
              simp only [List.length_cons] at h1 h2
              by_cases hb : c = '['
              · simp only [if_pos hb]
                exact ih f₂' (dropAfter ']' cs)
                  (le_trans (dropAfter_length _ _) (by omega))
                  (le_trans (dropAfter_length _ _) (by omega))
              · by_cases ha : c = '<'
                · simp only [if_neg hb, if_pos ha]
                  exact ih f₂' (dropAfter '>' cs)
                    (le_trans (dropAfter_length _ _) (by omega))
                    (le_trans (dropAfter_length _ _) (by omega))
                · simp only [if_neg hb, if_neg ha]
                  exact congrArg _ (ih f₂' cs (by omega) (by omega))

theorem stripTs_cons (c : Char) (cs : List Char) :
    stripTs (c :: cs) =
      if c = '[' then stripTs (dropAfter ']' cs)
      else if c = '<' then stripTs (dropAfter '>' cs)
      else c :: stripTs cs := by
  show stripCore (cs.length + 1) (c :: cs) = _
  simp only [stripCore]
  by_cases hb : c = '['
  · simp only [if_pos hb]
    exact stripCore_congr cs.length (dropAfter ']' cs).length _
      (dropAfter_length _ _) le_rfl
  · by_cases ha : c = '<'
    · simp only [if_neg hb, if_pos ha]
      exact stripCore_congr cs.length (dropAfter '>' cs).length _
        (dropAfter_length _ _) le_rfl
    · simp only [if_neg hb, if_neg ha]
      rfl

theorem dropAfter_append (d : Char) :
    ∀ (xs rest : List Char), d ∉ xs →
      dropAfter d (xs ++ d :: rest) = rest := by
  intro xs
  induction xs with
  | nil => intro rest _; simp [dropAfter]
  | cons c cs ih =>
      intro rest h
      simp only [List.cons_append, dropAfter]
      rw [if_neg (by rintro rfl; exact h (List.mem_cons_self _ _))]
      exact ih rest (fun hm => h (List.mem_cons_of_mem _ hm))

/-- Characters that open no timestamp pass through the stripper. -/
theorem stripTs_append (xs rest : List Char)
    (h : ∀ c ∈ xs, c ≠ '[' ∧ c ≠ '<') :
    stripTs (xs ++ rest) = xs ++ stripTs rest := by
  induction xs with
  | nil => simp
  | cons c cs ih =>
      have hc := h c (List.mem_cons_self _ _)
      rw [List.cons_append, stripTs_cons, if_neg hc.1, if_neg hc.2,
        ih (fun x hx => h x (List.mem_cons_of_mem _ hx))]
      rfl

theorem natDigitsCore_chars :
    ∀ fuel n acc, (∀ c ∈ acc, c ∈ "0123456789".toList) →
      ∀ c ∈ natDigitsCore fuel n acc, c ∈ "0123456789".toList := by
  intro fuel
  induction fuel with
  | zero =>
      intro n acc hacc c hc
      cases n with
      | zero => exact hacc c hc
      | succ m => exact hacc c hc
  | succ f ih =>
      intro n acc hacc c hc
      cases n with
      | zero => exact hacc c hc
      | succ m =>
          refine ih ((m + 1) / 10) _ ?_ c hc
          intro x hx
          rcases List.mem_cons.mp hx with rfl | hx'
          · have h10 : (m + 1) % 10 < 10 := Nat.mod_lt _ (by norm_num)
            have hdig : ∀ r < 10, Nat.digitChar r ∈ "0123456789".toList := by
              decide
            exact hdig _ h10
          · exact hacc x hx'

theorem natDigits_chars (n : ℕ) : ∀ c ∈ natDigits n, c ∈ "0123456789".toList := by
  unfold natDigits
  split
  · intro c hc
    simp only [List.mem_singleton] at hc
    subst hc
    decide
  · exact natDigitsCore_chars n n [] (by simp)

theorem padZeros_chars (w : ℕ) (s : List Char)
    (hs : ∀ c ∈ s, c ∈ "0123456789".toList) :
    ∀ c ∈ padZeros w s, c ∈ "0123456789".toList := by
  intro c hc
  rcases List.mem_append.mp hc with h | h
  · rw [List.eq_of_mem_replicate h]; decide
  · exact hs c h

theorem fmtInt2_chars (n : ℤ) : ∀ c ∈ fmtInt2 n, c ∈ "-0123456789".toList := by
  have hsub : ∀ c ∈ "0123456789".toList, c ∈ "-0123456789".toList := by decide
  unfold fmtInt2
  split
  · intro c hc
    rcases List.mem_cons.mp hc with rfl | hc'
    · decide
    · exact hsub c (padZeros_chars 1 _ (natDigits_chars _) c hc')
  · intro c hc
    exact hsub c (padZeros_chars 2 _ (natDigits_chars _) c hc)

theorem tsBody_chars (q : ℚ) : ∀ c ∈ tsBody q, c ∈ "-0123456789:.".toList := by
  have hsub1 : ∀ c ∈ "-0123456789".toList, c ∈ "-0123456789:.".toList := by
    decide
  have hsub2 : ∀ c ∈ "0123456789".toList, c ∈ "-0123456789:.".toList := by
    decide
  intro c hc
  unfold tsBody at hc
  rcases List.mem_append.mp hc with h | h
  · exact hsub1 c (fmtInt2_chars _ c h)
  · rcases List.mem_cons.mp h with rfl | h
    · decide
    · rcases List.mem_append.mp h with h | h
      · exact hsub2 c (padZeros_chars 2 _ (natDigits_chars _) c h)
      · rcases List.mem_cons.mp h with rfl | h
        · decide
        · exact hsub2 c (padZeros_chars 2 _ (natDigits_chars _) c h)

theorem formatTime_chars (q : ℚ) :
    ∀ c ∈ formatTime q, c ∈ "[]-0123456789:.".toList := by
  have hsub : ∀ c ∈ "-0123456789:.".toList, c ∈ "[]-0123456789:.".toList := by
    decide
  intro c hc
  unfold formatTime at hc
  rcases List.mem_cons.mp hc with rfl | hc'
  · decide
  · rcases List.mem_append.mp hc' with h | h
    · exact hsub c (tsBody_chars q c h)
    · simp only [List.mem_singleton] at h
      subst h
      decide

theorem stripTs_formatTime (q : ℚ) (rest : List Char) :
    stripTs (formatTime q ++ rest) = stripTs rest := by
  have hshape : formatTime q ++ rest = '[' :: (tsBody q ++ ']' :: rest) := by
    simp [formatTime]
  rw [hshape, stripTs_cons, if_pos rfl,
    dropAfter_append ']' (tsBody q) rest
      (fun h => absurd (tsBody_chars q ']' h) (by decide))]

theorem dropAfter_gt_formatTime (q : ℚ) (rest : List Char) :
    dropAfter '>' (formatTime q ++ '>' :: rest) = rest :=
  dropAfter_append '>' (formatTime q) rest
    (fun h => absurd (formatTime_chars q '>' h) (by decide))

theorem splitWsAux_word :
    ∀ (w : List Char), (∀ c ∈ w, c.isWhitespace = false) →
      ∀ r acc, splitWsAux (w ++ r) acc = splitWsAux r (w.reverse ++ acc) := by
  intro w
  induction w with
  | nil => intro _ r acc; simp
  | cons c w' ih =>
      intro h r acc
      have hc : c.isWhitespace = false := h c (List.mem_cons_self _ _)
      show splitWsAux (c :: (w' ++ r)) acc = _
      rw [splitWsAux, if_neg (by simp [hc]),
        ih (fun x hx => h x (List.mem_cons_of_mem _ hx)) r (c :: acc)]
      simp

theorem splitWsAux_ws_skip (c : Char) (hc : c.isWhitespace = true)
    (cs : List Char) : splitWsAux (c :: cs) [] = splitWsAux cs [] := by
  rw [splitWsAux, if_pos (by simp [hc]), if_pos (by simp)]

theorem splitWsAux_ws_flush (c : Char) (hc : c.isWhitespace = true)
    (cs acc : List Char) (ha : acc ≠ []) :
    splitWsAux (c :: cs) acc = acc.reverse :: splitWsAux cs [] := by
  rw [splitWsAux, if_pos (by simp [hc]),
    if_neg (by simpa [List.isEmpty_iff] using ha)]

theorem splitWsAux_boundary (w : List Char) (hw : w ≠ [])
    (hclean : ∀ c ∈ w, c.isWhitespace = false) (r : List Char)
    (hr : r = [] ∨ ∃ c r', r = c :: r' ∧ c.isWhitespace = true) :
    splitWsAux (w ++ r) [] = w :: splitWsAux r [] := by
  rw [splitWsAux_word w hclean r [], List.append_nil]
  rcases hr with rfl | ⟨c, r', rfl, hc⟩
  · show splitWsAux [] w.reverse = [w]
    rw [splitWsAux,
      if_neg (by simpa [List.isEmpty_iff] using (by simpa using hw :
        w.reverse ≠ [])), List.reverse_reverse]
  · rw [splitWsAux_ws_flush c hc r' w.reverse (by simpa using hw),
      List.reverse_reverse, splitWsAux_ws_skip c hc r']

theorem splitWsAux_join_space :
    ∀ (ws : List (List Char)),
      (∀ w ∈ ws, w ≠ [] ∧ ∀ c ∈ w, c.isWhitespace = false) →
      ∀ r, (r = [] ∨ ∃ c r', r = c :: r' ∧ c.isWhitespace = true) →
        splitWsAux (joinWith [' '] ws ++ r) [] = ws ++ splitWsAux r [] := by
  intro ws
  induction ws with
  | nil => intro _ r _; simp [joinWith]
  | cons w ws' ih =>
      intro h r hr
      have hw := h w (List.mem_cons_self _ _)
      cases ws' with
      | nil =>
          show splitWsAux (w ++ r) [] = w :: splitWsAux r []
          exact splitWsAux_boundary w hw.1 hw.2 r hr
      | cons x t =>
          have hjoin : joinWith [' '] (w :: x :: t) ++ r =
              w ++ (' ' :: (joinWith [' '] (x :: t) ++ r)) := by
            show (w ++ [' '] ++ joinWith [' '] (x :: t)) ++ r = _
            simp
          rw [hjoin,
            splitWsAux_boundary w hw.1 hw.2 _
              (Or.inr ⟨' ', joinWith [' '] (x :: t) ++ r, rfl, by decide⟩),
            splitWsAux_ws_skip ' ' (by decide),
            ih (fun v hv => h v (List.mem_cons_of_mem _ hv)) r hr]
          rfl

theorem splitWsAux_doc :
    ∀ (wss : List (List (List Char))),
      (∀ ws ∈ wss, ws ≠ [] ∧ ∀ w ∈ ws, w ≠ [] ∧
        ∀ c ∈ w, c.isWhitespace = false) →
      splitWsAux (joinWith ['\n'] (wss.map (joinWith [' ']))) [] =
        wss.flatten := by
  intro wss
  induction wss with
  | nil => intro _; rfl
  | cons ws wss' ih =>
      intro h
      have hws := h ws (List.mem_cons_self _ _)
      cases wss' with
      | nil =>
          show splitWsAux (joinWith [' '] ws) [] = ws ++ []
          rw [← List.append_nil (joinWith [' '] ws),
            splitWsAux_join_space ws hws.2 [] (Or.inl rfl)]
          rfl
      | cons ws2 t =>
          have hjoin : joinWith ['\n'] ((ws :: ws2 :: t).map (joinWith [' '])) =
              joinWith [' '] ws ++
                ('\n' :: joinWith ['\n'] ((ws2 :: t).map (joinWith [' ']))) := by
            show (joinWith [' '] ws ++ ['\n'] ++ _) = _
            simp
          rw [hjoin,
            splitWsAux_join_space ws hws.2 _
              (Or.inr ⟨'\n', _, rfl, by decide⟩),
            splitWsAux_ws_skip '\n' (by decide),
            ih (fun v hv => h v (List.mem_cons_of_mem _ hv))]
          rfl

theorem joinWith_chars (sep : List Char) :
    ∀ (ws : List (List Char)) (c : Char), c ∈ joinWith sep ws →
      c ∈ sep ∨ ∃ w ∈ ws, c ∈ w := by
  intro ws
  induction ws with
  | nil => intro c hc; simp [joinWith] at hc
  | cons w ws' ih =>
      intro c hc
      cases ws' with
      | nil => exact Or.inr ⟨w, List.mem_cons_self _ _, hc⟩
      | cons x t =>
          rcases List.mem_append.mp hc with h1 | h2
          · rcases List.mem_append.mp h1 with hw | hs
            · exact Or.inr ⟨w, List.mem_cons_self _ _, hw⟩
            · exact Or.inl hs
          · rcases ih c h2 with hs | ⟨v, hv, hcv⟩
            · exact Or.inl hs
            · exact Or.inr ⟨v, List.mem_cons_of_mem _ hv, hcv⟩

theorem stripTs_clean (xs : List Char) (h : ∀ c ∈ xs, c ≠ '[' ∧ c ≠ '<') :
    stripTs xs = xs := by
  have h2 := stripTs_append xs [] h
  rw [List.append_nil, show stripTs ([] : List Char) = [] from rfl,
    List.append_nil] at h2
  exact h2

theorem stripTs_units (b : List WordAlignment)
    (h : ∀ a ∈ b, ∀ c ∈ a.word, c ≠ '[' ∧ c ≠ '<') :
    ∀ rest,
      stripTs ((b.map (fun a => '<' :: formatTime a.start_time ++
          '>' :: a.word)).flatten ++ rest) =
        (b.map (fun a => a.word)).flatten ++ stripTs rest := by
  induction b with
  | nil => intro rest; simp
  | cons a b' ih =>
      intro rest
      simp only [List.map_cons, List.flatten_cons]
      have hshape :
          (('<' :: formatTime a.start_time ++ '>' :: a.word) ++
              ((b'.map (fun a => '<' :: formatTime a.start_time ++
                '>' :: a.word)).flatten ++ rest)) =
            '<' :: (formatTime a.start_time ++
              '>' :: (a.word ++
                ((b'.map (fun a => '<' :: formatTime a.start_time ++
                  '>' :: a.word)).flatten ++ rest))) := by
        simp
      rw [List.append_assoc, hshape, stripTs_cons,
        if_neg (by decide : ¬ ('<' = '[')), if_pos rfl,
        dropAfter_gt_formatTime,
        stripTs_append a.word _ (h a (List.mem_cons_self _ _)),
        ih (fun v hv => h v (List.mem_cons_of_mem _ hv)) rest]
      simp

theorem stripTs_lrc_doc :
    ∀ (bs : List (List WordAlignment)),
      (∀ b ∈ bs, ∀ a ∈ b, ∀ c ∈ a.word, c ≠ '[' ∧ c ≠ '<') →
      stripTs (joinWith ['\n'] (bs.map formatLrcLine)) =
        joinWith ['\n']
          (bs.map (fun b => joinWith [' '] (b.map (fun a => a.word)))) := by
  intro bs
  induction bs with
  | nil => intro _; rfl
  | cons b bs' ih =>
      intro h
      have hbody : ∀ c ∈ joinWith [' '] (b.map (fun a => a.word)),
          c ≠ '[' ∧ c ≠ '<' := by
        intro c hc
        rcases joinWith_chars [' '] _ c hc with hsep | ⟨w, hw, hcw⟩
        · simp only [List.mem_singleton] at hsep
          subst hsep
          exact ⟨by decide, by decide⟩
        · obtain ⟨a, ha, rfl⟩ := List.mem_map.mp hw
          exact h b (List.mem_cons_self _ _) a ha c hcw
      cases bs' with
      | nil =>
          show stripTs (formatLrcLine b) = joinWith [' '] (b.map (fun a => a.word))
          unfold formatLrcLine
          rw [stripTs_formatTime, stripTs_clean _ hbody]
      | cons b2 t =>
          have hjoin : joinWith ['\n'] ((b :: b2 :: t).map formatLrcLine) =
              formatTime (b.headD default).start_time ++
                (joinWith [' '] (b.map (fun a => a.word)) ++
                  ('\n' :: joinWith ['\n'] ((b2 :: t).map formatLrcLine))) := by
            show (formatLrcLine b ++ ['\n'] ++ _) = _
            unfold formatLrcLine
            simp
          rw [hjoin, stripTs_formatTime, stripTs_append _ _ hbody,
            stripTs_cons, if_neg (by decide), if_neg (by decide),
            ih (fun v hv => h v (List.mem_cons_of_mem _ hv))]
          show _ ++ ('\n' :: _) = (_ ++ ['\n'] ++ _)
          simp

theorem stripTs_elrc_doc :
    ∀ (bs : List (List WordAlignment)),
      (∀ b ∈ bs, ∀ a ∈ b, ∀ c ∈ a.word, c ≠ '[' ∧ c ≠ '<') →
      stripTs (joinWith ['\n'] (bs.map formatElrcLine)) =
        joinWith ['\n']
          (bs.map (fun b => (b.map (fun a => a.word)).flatten)) := by
  intro bs
  induction bs with
  | nil => intro _; rfl
  | cons b bs' ih =>
      intro h
      have hb := h b (List.mem_cons_self _ _)
      cases bs' with
      | nil =>
          show stripTs (formatElrcLine b) = (b.map (fun a => a.word)).flatten
          unfold formatElrcLine
          rw [stripTs_formatTime]
          have h2 := stripTs_units b hb []
          rw [List.append_nil, show stripTs ([] : List Char) = [] from rfl,
            List.append_nil] at h2
          exact h2
      | cons b2 t =>
          have hjoin : joinWith ['\n'] ((b :: b2 :: t).map formatElrcLine) =
              formatTime (b.headD default).start_time ++
                ((b.map (fun a => '<' :: formatTime a.start_time ++
                    '>' :: a.word)).flatten ++
                  ('\n' :: joinWith ['\n'] ((b2 :: t).map formatElrcLine))) := by
            show (formatElrcLine b ++ ['\n'] ++ _) = _
            unfold formatElrcLine
            simp
          rw [hjoin, stripTs_formatTime, stripTs_units b hb,
            stripTs_cons, if_neg (by decide), if_neg (by decide),
            ih (fun v hv => h v (List.mem_cons_of_mem _ hv))]
          show _ ++ ('\n' :: _) = (_ ++ ['\n'] ++ _)
          simp

theorem flatten_singletons {α β : Type} (f : α → List β) :
    ∀ l : List α, (l.map (fun x => [f x])).flatten = l.map f := by
  intro l
  induction l with
  | nil => rfl
  | cons a t ih => simp_all

/-- **C6 (amended).** For word texts that are non-empty and free of
whitespace and of the bracket characters, stripping all timestamps from
the line-level rendering and collapsing whitespace reproduces the word
sequence; for the word-level rendering the same operation yields each
*batch's words concatenated without separators* (the `<...>` timestamps
are the only separators between words of an eLRC line, so plain stripping
merges each batch into one token — the amendment drops the word-level
format from the round-trip). -/
theorem C6_strip_roundtrip (a : List WordAlignment) (ha : a ≠ [])
    (hw : ∀ s ∈ a, s.word ≠ [] ∧ ∀ c ∈ s.word,
      c.isWhitespace = false ∧ c ≠ '[' ∧ c ≠ ']' ∧ c ≠ '<' ∧ c ≠ '>') :
    collapseWs (stripTs (toLrc a)) = a.map (fun s => s.word)
    ∧ collapseWs (stripTs (toElrc a)) =
        (chunkList 3 a).map (fun b => (b.map (fun s => s.word)).flatten) := by
  have hne : ¬ a.isEmpty = true := by simpa [List.isEmpty_iff] using ha
  constructor
  · have h4 : toLrc a = joinWith ['\n'] ((chunkList 4 a).map formatLrcLine) := by
      unfold toLrc
      rw [if_neg hne, linesGo_chunk formatLrcLine 4 (by norm_num) a []
        (by simp), List.nil_append]
    have hmem4 := chunkList_mem 4 (by norm_num) a
    have hcleanb : ∀ b ∈ chunkList 4 a, ∀ x ∈ b, ∀ c ∈ x.word,
        c ≠ '[' ∧ c ≠ '<' := by
      intro b hb x hx c hc
      have hx' := (hw x ((hmem4 b hb).2 x hx)).2 c hc
      exact ⟨hx'.2.1, hx'.2.2.2.1⟩
    have hcond4 : ∀ ws ∈ (chunkList 4 a).map (fun b => b.map (fun s => s.word)),
        ws ≠ [] ∧ ∀ w ∈ ws, w ≠ [] ∧ ∀ c ∈ w, c.isWhitespace = false := by
      intro ws hws
      obtain ⟨b, hb, rfl⟩ := List.mem_map.mp hws
      refine ⟨by simpa using (hmem4 b hb).1, ?_⟩
      intro w hwmem
      obtain ⟨x, hx, rfl⟩ := List.mem_map.mp hwmem
      have hx' := hw x ((hmem4 b hb).2 x hx)
      exact ⟨hx'.1, fun c hc => (hx'.2 c hc).1⟩
    have hdoc := splitWsAux_doc
      ((chunkList 4 a).map (fun b => b.map (fun s => s.word))) hcond4
    rw [List.map_map] at hdoc
    show splitWsAux (stripTs (toLrc a)) [] = _
    rw [h4, stripTs_lrc_doc (chunkList 4 a) hcleanb]
    rw [show ((chunkList 4 a).map
        (fun b => joinWith [' '] (b.map (fun a => a.word)))) =
      ((chunkList 4 a).map
        (joinWith [' '] ∘ fun b => b.map (fun s => s.word))) from rfl]
    rw [hdoc, ← List.map_flatten, chunkList_flatten 4 (by norm_num) a]
  · have h3 : toElrc a = joinWith ['\n'] ((chunkList 3 a).map formatElrcLine) := by
      unfold toElrc
      rw [if_neg hne, linesGo_chunk formatElrcLine 3 (by norm_num) a []
        (by simp), List.nil_append]
    have hmem3 := chunkList_mem 3 (by norm_num) a
    have hcleanb : ∀ b ∈ chunkList 3 a, ∀ x ∈ b, ∀ c ∈ x.word,
        c ≠ '[' ∧ c ≠ '<' := by
      intro b hb x hx c hc
      have hx' := (hw x ((hmem3 b hb).2 x hx)).2 c hc
      exact ⟨hx'.2.1, hx'.2.2.2.1⟩
    have hcond3 : ∀ ws ∈ (chunkList 3 a).map
          (fun b => [(b.map (fun s => s.word)).flatten]),
        ws ≠ [] ∧ ∀ w ∈ ws, w ≠ [] ∧ ∀ c ∈ w, c.isWhitespace = false := by
      intro ws hws
      obtain ⟨b, hb, rfl⟩ := List.mem_map.mp hws
      refine ⟨by simp, ?_⟩
      intro w hwmem
      simp only [List.mem_singleton] at hwmem
      subst hwmem
      constructor
      · obtain ⟨hbne, hbsub⟩ := hmem3 b hb
        obtain ⟨x, bt, rfl⟩ := List.exists_cons_of_ne_nil hbne
        simp only [List.map_cons, List.flatten_cons]
        exact List.append_ne_nil_of_left_ne_nil
          (hw x (hbsub x (List.mem_cons_self _ _))).1 _
      · intro c hc
        obtain ⟨wrd, hwrd, hcw⟩ := List.mem_flatten.mp hc
        obtain ⟨x, hx, rfl⟩ := List.mem_map.mp hwrd
        exact ((hw x ((hmem3 b hb).2 x hx)).2 c hcw).1
    have hdoc := splitWsAux_doc
      ((chunkList 3 a).map (fun b => [(b.map (fun s => s.word)).flatten])) hcond3
    rw [List.map_map] at hdoc
    show splitWsAux (stripTs (toElrc a)) [] = _
    rw [h3, stripTs_elrc_doc (chunkList 3 a) hcleanb]
    rw [show ((chunkList 3 a).map
        (fun b => (b.map (fun a => a.word)).flatten)) =
      ((chunkList 3 a).map
        (joinWith [' '] ∘ fun b => [(b.map (fun s => s.word)).flatten]))
      from rfl]
    rw [hdoc, flatten_singletons]
    rfl

/-- Two clean one-letter words, both starting at `0`. -/
def cexA6 : List WordAlignment := [⟨['a'], 0, 0⟩, ⟨['b'], 0, 0⟩]

/-- **C6 counterexample.** The words `"a"`, `"b"` contain no
timestamp-shaped substring, yet stripping all `[...]`/`<...>` timestamps
from the word-level rendering `to_elrc` and collapsing whitespace yields
the single merged token `"ab"`, not the original word sequence: the eLRC
line concatenates words with no separator besides the inline timestamps
themselves. -/
theorem C6_counterexample :
    toElrc cexA6 = "[00:00.00]<[00:00.00]>a<[00:00.00]>b".toList
    ∧ collapseWs (stripTs (toElrc cexA6)) = ["ab".toList]
    ∧ collapseWs (stripTs (toElrc cexA6)) ≠ cexA6.map (fun s => s.word) :=
  of_decide_eq_true (by with_unfolding_all rfl)

/-- Witness for `C6_strip_roundtrip` at the two-word input `cexA6`. -/
theorem C6_strip_roundtrip_witness :
    (cexA6 ≠ []
      ∧ ∀ s ∈ cexA6, s.word ≠ [] ∧ ∀ c ∈ s.word,
          c.isWhitespace = false ∧ c ≠ '[' ∧ c ≠ ']' ∧ c ≠ '<' ∧ c ≠ '>')
    ∧ (collapseWs (stripTs (toLrc cexA6)) = cexA6.map (fun s => s.word)
      ∧ collapseWs (stripTs (toElrc cexA6)) =
          (chunkList 3 cexA6).map (fun b => (b.map (fun s => s.word)).flatten)) :=
  ⟨⟨by simp [cexA6], by decide⟩,
    C6_strip_roundtrip cexA6 (by simp [cexA6]) (by decide)⟩

/-! ## Transcription retry loop (`get_gemini_transcript`) -/

/-- Outcome of one external transcription attempt: the call raises, or it
returns a falsy response (`None` or empty text), or it returns text. -/
inductive CallResult
  | raise
  | respNone
  | respText (s : List Char)
deriving DecidableEq, Repr

/-- Python's `str.strip()`: drop whitespace from both ends. -/
def pyStrip (s : List Char) : List Char :=
  ((s.dropWhile Char.isWhitespace).reverse.dropWhile Char.isWhitespace).reverse

/-- An attempt that produces no transcript: an exception, a falsy
response, or empty text. -/
def callFailed : CallResult → Bool
  | .raise => true
  | .respNone => true
  | .respText s => s.isEmpty

/-- The `for attempt in range(max_retries)` loop of
`get_gemini_transcript` (`src/gemini_api.py`), with the external call
abstracted as `call : attempt index → CallResult` and `rem` the number of
remaining attempts.  Returns (result, number of calls made, list of sleep
durations).  On a truthy response the loop returns `response.text.strip()`;
on an exception it sleeps `retry_delay` and retries unless it was the last
attempt, in which case it returns `None` immediately; on a falsy response
it simply continues to the next attempt — without sleeping.  The loop
falling off the end returns `None`. -/
def geminiRun (call : ℕ → CallResult) (delay : ℚ) :
    ℕ → ℕ → Option (List Char) × ℕ × List ℚ
  | _, 0 => (none, 0, [])
  | attempt, rem + 1 =>
      match call attempt with
      | .respText s =>
          if s.isEmpty then
            let r := geminiRun call delay (attempt + 1) rem
            (r.1, r.2.1 + 1, r.2.2)
          else (some (pyStrip s), 1, [])
      | .respNone =>
          let r := geminiRun call delay (attempt + 1) rem
          (r.1, r.2.1 + 1, r.2.2)
      | .raise =>
          if rem = 0 then (none, 1, [])
          else
            let r := geminiRun call delay (attempt + 1) rem
            (r.1, r.2.1 + 1, delay :: r.2.2)

/-- `get_gemini_transcript` with `MAX_RETRIES = maxRetries` and
`RETRY_DELAY = delay`. -/
def getGeminiTranscript (call : ℕ → CallResult) (maxRetries : ℕ)
    (delay : ℚ) : Option (List Char) × ℕ × List ℚ :=
  geminiRun call delay 0 maxRetries

theorem geminiRun_bounds (call : ℕ → CallResult) (delay : ℚ) :
    ∀ rem attempt,
      (geminiRun call delay attempt rem).2.1 ≤ rem
      ∧ ∀ x ∈ (geminiRun call delay attempt rem).2.2, x = delay := by
  intro rem
  induction rem with
  | zero => intro attempt; exact ⟨le_rfl, by simp [geminiRun]⟩
  | succ rem ih =>
      intro attempt
      show (match call attempt with
        | CallResult.respText s => _
        | CallResult.respNone => _
        | CallResult.raise => _ : Option (List Char) × ℕ × List ℚ).2.1 ≤ _ ∧ _
      cases hc : call attempt with
      | respText s =>
          obtain ⟨h1, h2⟩ := ih (attempt + 1)
          simp only [geminiRun, hc]
          by_cases hs : s.isEmpty = true
          · rw [if_pos hs]
            exact ⟨by dsimp only; omega, h2⟩
          · rw [if_neg hs]
            exact ⟨by dsimp only; omega, by simp⟩
      | respNone =>
          obtain ⟨h1, h2⟩ := ih (attempt + 1)
          simp only [geminiRun, hc]
          exact ⟨by omega, h2⟩
      | raise =>
          obtain ⟨h1, h2⟩ := ih (attempt + 1)
          simp only [geminiRun, hc]
          by_cases hr : rem = 0
          · rw [if_pos hr]
            exact ⟨by dsimp only; omega, by simp⟩
          · rw [if_neg hr]
            refine ⟨by dsimp only; omega, ?_⟩
            intro x hx
            rcases List.mem_cons.mp hx with rfl | hx'
            · rfl
            · exact h2 x hx'

theorem geminiRun_all_fail (call : ℕ → CallResult) (delay : ℚ) :
    ∀ rem attempt,
      (∀ a, attempt ≤ a → a < attempt + rem → callFailed (call a) = true) →
      (geminiRun call delay attempt rem).1 = none
      ∧ (geminiRun call delay attempt rem).2.1 = rem := by
  intro rem
  induction rem with
  | zero => intro attempt _; exact ⟨rfl, rfl⟩
  | succ rem ih =>
      intro attempt h
      have hfail : callFailed (call attempt) = true :=
        h attempt le_rfl (by omega)
      have hrec := ih (attempt + 1)
        (fun a h1 h2 => h a (by omega) (by omega))
      cases hc : call attempt with
      | respText s =>
          have hs : s.isEmpty = true := by
            rw [hc] at hfail; exact hfail
          simp only [geminiRun, hc]
          rw [if_pos hs]
          exact ⟨hrec.1, by dsimp only; have := hrec.2; omega⟩
      | respNone =>
          simp only [geminiRun, hc]
          exact ⟨hrec.1, by have := hrec.2; omega⟩
      | raise =>
          simp only [geminiRun, hc]
          by_cases hr : rem = 0
          · rw [if_pos hr]
            exact ⟨rfl, by dsimp only; omega⟩
          · rw [if_neg hr]
            exact ⟨hrec.1, by dsimp only; have := hrec.2; omega⟩

/-- **C9 (amended).** `get_gemini_transcript` makes at most `maxRetries`
calls, every recorded sleep lasts exactly the configured delay, and when
all attempts fail it makes exactly `maxRetries` calls and returns `None`
(the swallowed exceptions never propagate — the model is a total
function).  The amendment: the delay is slept only between attempts that
fail *by raising*; an attempt that returns a falsy/empty response is
retried immediately with no sleep. -/
theorem C9_retry_loop (call : ℕ → CallResult) (maxRetries : ℕ) (delay : ℚ) :
    (getGeminiTranscript call maxRetries delay).2.1 ≤ maxRetries
    ∧ (∀ x ∈ (getGeminiTranscript call maxRetries delay).2.2, x = delay)
    ∧ ((∀ a < maxRetries, callFailed (call a) = true) →
        (getGeminiTranscript call maxRetries delay).1 = none
        ∧ (getGeminiTranscript call maxRetries delay).2.1 = maxRetries) := by
  obtain ⟨h1, h2⟩ := geminiRun_bounds call delay maxRetries 0
  exact ⟨h1, h2, fun h =>
    geminiRun_all_fail call delay maxRetries 0
      (fun a _ ha => h a (by omega))⟩

/-- Witness for `C9_retry_loop`: two attempts that both raise. -/
theorem C9_retry_loop_witness :
    ((getGeminiTranscript (fun _ => CallResult.raise) 2 5).2.1 ≤ 2
      ∧ (∀ x ∈ (getGeminiTranscript (fun _ => CallResult.raise) 2 5).2.2,
          x = 5)
      ∧ ((∀ a < 2, callFailed ((fun _ => CallResult.raise) a) = true) →
          (getGeminiTranscript (fun _ => CallResult.raise) 2 5).1 = none
          ∧ (getGeminiTranscript (fun _ => CallResult.raise) 2 5).2.1 = 2))
    ∧ (getGeminiTranscript (fun _ => CallResult.raise) 2 5).1 = none :=
  ⟨C9_retry_loop (fun _ => CallResult.raise) 2 5,
    ((C9_retry_loop (fun _ => CallResult.raise) 2 5).2.2
      (fun _ _ => rfl)).1⟩

/-- **C9 counterexample.** Two consecutive attempts fail (empty/falsy
responses), yet the recorded sleep list is empty: the claim that the loop
"sleeps the configured delay between consecutive failed attempts" fails
for failures that do not raise. -/
theorem C9_counterexample :
    (∀ a < 2, callFailed ((fun _ => CallResult.respNone) a) = true)
    ∧ getGeminiTranscript (fun _ => CallResult.respNone) 2 5 =
        (none, 2, []) :=
  ⟨fun _ _ => rfl, rfl⟩

/-! ## Language mapper selection (`get_language_mapper`) -/

/-- The two mapper classes of `src/languages/__init__.py`. -/
inductive LanguageMapper
  | sinhala
  | english
deriving DecidableEq, Repr

/-- The `LANGUAGE_MAPPERS` dictionary. -/
def LANGUAGE_MAPPERS : List (List Char × LanguageMapper) :=
  [("Sinhala".toList, LanguageMapper.sinhala),
   ("English".toList, LanguageMapper.english)]

/-- `get_language_mapper`:
`LANGUAGE_MAPPERS.get(language, EnglishMapper)` — dictionary lookup with
the English mapper as default; it is total and never raises. -/
def getLanguageMapper (language : List Char) : LanguageMapper :=
  (LANGUAGE_MAPPERS.lookup language).getD LanguageMapper.english

/-- **C10.** `get_language_mapper` returns the Sinhala mapper for
"Sinhala", the English mapper for "English", and silently falls back to
the English pass-through mapper for every other string (unsupported,
misspelled, or differently-cased names included); being a total function,
it never raises. -/
theorem C10_language_fallback :
    getLanguageMapper "Sinhala".toList = LanguageMapper.sinhala
    ∧ getLanguageMapper "English".toList = LanguageMapper.english
    ∧ ∀ s : List Char, s ≠ "Sinhala".toList → s ≠ "English".toList →
        getLanguageMapper s = LanguageMapper.english := by
  refine ⟨by decide, by decide, fun s h1 h2 => ?_⟩
  have e1 : (s == "Sinhala".toList) = false := beq_eq_false_iff_ne.mpr h1
  have e2 : (s == "English".toList) = false := beq_eq_false_iff_ne.mpr h2
  simp only [getLanguageMapper, LANGUAGE_MAPPERS, List.lookup, e1, e2]
  rfl

/-- Witness for `C10_language_fallback`: the miscased name "sinhala"
falls back to the English mapper. -/
theorem C10_language_fallback_witness :
    (("sinhala".toList ≠ "Sinhala".toList)
      ∧ ("sinhala".toList ≠ "English".toList))
    ∧ getLanguageMapper "sinhala".toList = LanguageMapper.english :=
  ⟨⟨by decide, by decide⟩,
    C10_language_fallback.2.2 "sinhala".toList (by decide) (by decide)⟩

end AutoLRC
